import Mathlib

/-!
# Verification of `inst_eval.py`

A shallow embedding in Lean 4 of the INST evaluation measure implementation
(`inst_algorithm`, `calc_ranked_gains`, `inst_eval` and the `-T` override of
the main entry point), with arithmetic over `ℚ` in place of Python floats.

The imperative loop of `inst_algorithm` keeps only the current values
`W[i]`, `T_is[i-1]` and the two accumulators alive between iterations, so it
is embedded as explicit state passing over a four-field state record; the
write-once arrays `W`, `C`, `T_is` are recovered as functions of the rank
(`Wf`, `Cf`, `Tis`).

The driver `inst_eval` is embedded as a fold over the sorted query list; the
whole mutable store of the Python run (the three loaded dictionaries plus the
driver's accumulators) is threaded through `EvalState`, so that frame
properties (which parts of the store a step may write) are provable facts
rather than artifacts of the embedding.  Dictionaries are modelled as
association lists with unique keys, the error/warning log (`logging.error`,
`logging.warn`, both on stderr) as a list of tagged events.
-/

namespace InstEval

/-- The gain `r_i` read at rank `i` by the loop body of `inst_algorithm`
(lines 110-119 of `inst_eval.py`): `defaultValue` when `i > n`, when
`i > len(ranked_gains)`, or when `ranked_gains[i-1] == -1`; otherwise the
stored gain `ranked_gains[i-1]`. -/
def rVal (ranked_gains : List ℚ) (n : ℕ) (defaultValue : ℚ) (i : ℕ) : ℚ :=
  if n < i then defaultValue
  else if ranked_gains.length < i then defaultValue
  else if ranked_gains.getD (i - 1) 0 = -1 then defaultValue
  else ranked_gains.getD (i - 1) 0

/-- Loop state of `inst_algorithm` after iteration `i`: the accumulators
`score` and `sumW`, the next weight `W` (that is `W[i+1]`), and the current
residual patience `Ti` (that is `T_is[i]`). -/
structure LoopState where
  score : ℚ
  sumW : ℚ
  W : ℚ
  Ti : ℚ
deriving DecidableEq

/-- One iteration of the loop of `inst_algorithm` at rank `i`, for a gain
sequence abstracted as a function `r` of the rank. -/
def instStep (T : ℚ) (r : ℕ → ℚ) (i : ℕ) (s : LoopState) : LoopState :=
  let ri := r i
  let Ti := s.Ti - ri
  let x : ℚ := (i : ℚ) + T + Ti
  let Ci := ((x - 1) / x) ^ 2
  { score := s.score + ri * s.W
    sumW := s.sumW + s.W
    W := s.W * Ci
    Ti := Ti }

/-- State before the first iteration: `score = 0`, `sumW = 0`, `W[1] = 1`,
`T_is[0] = T`. -/
def loopInit (T : ℚ) : LoopState :=
  { score := 0, sumW := 0, W := 1, Ti := T }

/-- The loop of `inst_algorithm` run for iterations `1, ..., k`. -/
def instLoop (T : ℚ) (r : ℕ → ℚ) : ℕ → LoopState
  | 0 => loopInit T
  | k + 1 => instStep T r (k + 1) (instLoop T r k)

/-- The computation horizon `N` of line 100:
`int(2*pow(10,4) if T<=5 else 2*pow(10,5))`. -/
def Nval (T : ℚ) : ℕ := if T ≤ 5 then 20000 else 200000

/-- `maxN = max(n, N)` of line 101. -/
def maxN (T : ℚ) (n : ℕ) : ℕ := max n (Nval T)

/-- The ranks visited by `for i in range(1, maxN)`: `1, ..., maxN - 1`. -/
def ranksList (T : ℚ) (n : ℕ) : List ℕ := List.range' 1 (maxN T n - 1)

/-- `inst_algorithm(T, ranked_gains, n, defaultValue)` (lines 95-128):
run the loop for ranks `1 .. maxN-1` and return `score / sumW`. -/
def inst_algorithm (T : ℚ) (ranked_gains : List ℚ) (n : ℕ) (defaultValue : ℚ) : ℚ :=
  let s := instLoop T (rVal ranked_gains n defaultValue) (maxN T n - 1)
  s.score / s.sumW

/-! ## Closed forms for the loop state

`T_is`, `C`, `W` and the two accumulators as functions of the rank. -/

/-- `T_is[k]`: residual patience after rank `k`. -/
def Tis (T : ℚ) (r : ℕ → ℚ) : ℕ → ℚ
  | 0 => T
  | k + 1 => Tis T r k - r (k + 1)

/-- The base `i + T + T_is[i]` whose shifted quotient is squared in `C[i]`. -/
def xv (T : ℚ) (r : ℕ → ℚ) (i : ℕ) : ℚ := (i : ℚ) + T + Tis T r i

/-- The continuation-probability shape `((y-1)/y)^2`. -/
def gq (y : ℚ) : ℚ := ((y - 1) / y) ^ 2

/-- `C[i] = ((i + T + T_is[i] - 1)/(i + T + T_is[i]))^2`. -/
def Cf (T : ℚ) (r : ℕ → ℚ) (i : ℕ) : ℚ := gq (xv T r i)

/-- `W[k+1]`: the weight entering iteration `k+1`; `Wf 0 = W[1] = 1`. -/
def Wf (T : ℚ) (r : ℕ → ℚ) : ℕ → ℚ
  | 0 => 1
  | k + 1 => Wf T r k * Cf T r (k + 1)

/-- The `score` accumulator after `M` iterations. -/
def scoreSum (T : ℚ) (r : ℕ → ℚ) (M : ℕ) : ℚ :=
  ∑ j in Finset.range M, r (j + 1) * Wf T r j

/-- The `sumW` accumulator after `M` iterations. -/
def weightSum (T : ℚ) (r : ℕ → ℚ) (M : ℕ) : ℚ :=
  ∑ j in Finset.range M, Wf T r j

/-! ## Auxiliary quantities for the residual bound

`Pt T r k fuel` is the gain mass of the tail of the series that starts at
rank `k` and runs for `fuel` further ranks, with its weights renormalised so
that the weight entering rank `k` is `1`.  `phiq` and `psiq` are the
potentials controlling it. -/

/-- Renormalised weighted tail gain: `Pt k fuel = Σ_{i=k}^{k+fuel-1} r i · Π_{l=k}^{i-1} C l`. -/
def Pt (T : ℚ) (r : ℕ → ℚ) : ℕ → ℕ → ℚ
  | _, 0 => 0
  | k, fuel + 1 => r k + Cf T r k * Pt T r (k + 1) fuel

/-- Potential `(y-1)^2 / (2y-1)`: the value of a constant-base tail. -/
def phiq (y : ℚ) : ℚ := (y - 1) ^ 2 / (2 * y - 1)

/-- Potential `y^2 / (2y-1)`: an upper bound for `Pt` at base `y`. -/
def psiq (y : ℚ) : ℚ := y ^ 2 / (2 * y - 1)

/-- Hybrid gain-choice sequence used to compare `defaultValue = 0` with
`defaultValue = 1`: ranks `1 .. k` read their gain with `defaultValue = 1`,
later ranks with `defaultValue = 0`. -/
def hybSeq (gains : List ℚ) (n k : ℕ) : ℕ → ℚ :=
  fun i => if 1 ≤ i ∧ i ≤ k then rVal gains n 1 i else rVal gains n 0 i

/-! ## The gain mapper -/

/-- An entry of a TREC results ranking: `(docName, rankPos, score, runId)`
(the rank is kept as the string read from the file, as in the source). -/
abbrev RankedEntry := String × String × ℚ × String

/-- The per-query judgment dictionary `docName -> relevance`. -/
abbrev QrelsQ := List (String × ℚ)

/-- `calc_ranked_gains(ranked_list, qrels, max_graded_label)` (lines 131-142):
append, for each ranked document, `qrels[doc] / max_graded_label` when the
document is judged and the sentinel `-1.0` otherwise. -/
def calc_ranked_gains (ranked_list : List RankedEntry) (qrels : QrelsQ)
    (max_graded_label : ℚ) : List ℚ :=
  ranked_list.foldl
    (fun acc e =>
      acc ++ [match qrels.lookup e.1 with
              | some rel => rel / max_graded_label
              | none => -1])
    []

/-! ## The evaluation driver -/

/-- Events written to the diagnostic channel (stderr) by the driver. -/
inductive EvalErr where
  /-- `logging.error("No T was found for query %s.")`, line 171. -/
  | missingT (q : String)
  /-- `logging.error("No qrels were found for query %s.")`, line 175. -/
  | missingQrels (q : String)
  /-- `logging.warn("No results found for query %s")`, line 181. -/
  | warnNoResults (q : String)
  /-- `logging.error("No results were found for query %s.")`, line 209. -/
  | missingResults (q : String)
deriving DecidableEq

/-- The `totals` accumulator dictionary (its six per-query keys). -/
structure Totals where
  num_ret : ℚ
  num_rel : ℚ
  num_rel_ret : ℚ
  score_min : ℚ
  score_max : ℚ
  residual : ℚ
deriving DecidableEq

/-- `totals` before any query was evaluated. -/
def Totals.zero : Totals := ⟨0, 0, 0, 0, 0, 0⟩

/-- The per-query record passed to `print_stats` (line 197). -/
structure QueryRecord where
  qId : String
  num_ret : ℕ
  num_rel : ℕ
  num_rel_ret : ℕ
  score_min : ℚ
  score_max : ℚ
  residual : ℚ
deriving DecidableEq

/-- The mutable store of one `inst_eval` run: the three loaded dictionaries
and the driver's local accumulators.  `totalsWritten` models
`len(totals) > 0`. -/
structure EvalState where
  results : List (String × List RankedEntry)
  qrels : List (String × QrelsQ)
  Ts : List (String × ℤ)
  totals : Totals
  totalsWritten : Bool
  query_count : ℕ
  records : List QueryRecord
  errlog : List EvalErr
deriving DecidableEq

/-- The aggregate record printed with QueryId `all` (lines 212-215):
every accumulated total divided by `query_count`, plus
`num_q = len(results)`. -/
structure SummaryRecord where
  num_q : ℕ
  num_ret : ℚ
  num_rel : ℚ
  num_rel_ret : ℚ
  score_min : ℚ
  score_max : ℚ
  residual : ℚ
deriving DecidableEq

/-- `totals = dict([(stat, float(value)/query_count) ...])` followed by
`totals['num_q'] = len(results)`. -/
def mkSummary (t : Totals) (qc : ℕ) (numResults : ℕ) : SummaryRecord :=
  { num_q := numResults
    num_ret := t.num_ret / (qc : ℚ)
    num_rel := t.num_rel / (qc : ℚ)
    num_rel_ret := t.num_rel_ret / (qc : ℚ)
    score_min := t.score_min / (qc : ℚ)
    score_max := t.score_max / (qc : ℚ)
    residual := t.residual / (qc : ℚ) }

/-- `sorted(...)` over a list of query ids. -/
def sortStrings (l : List String) : List String :=
  l.mergeSort (fun a b => decide (a ≤ b))

/-- `sorted(qrels) if complete_qrel_queries else sorted(results)` (line 164). -/
def queryList (complete : Bool) (results : List (String × List RankedEntry))
    (qrels : List (String × QrelsQ)) : List String :=
  if complete then sortStrings (qrels.map Prod.fst)
  else sortStrings (results.map Prod.fst)

/-- The body of the per-query loop of `inst_eval` (lines 167-210), for a
scorer abstracted as a function argument (the source calls
`inst_algorithm`). -/
def processQuery (scorer : ℚ → List ℚ → ℕ → ℚ → ℚ) (maxg : ℚ) (complete : Bool)
    (st : EvalState) (qId : String) : EvalState :=
  match st.Ts.lookup qId with
  | none => { st with errlog := st.errlog ++ [.missingT qId] }
  | some T =>
    match st.qrels.lookup qId with
    | none => { st with errlog := st.errlog ++ [.missingQrels qId] }
    | some qq =>
      if (st.results.lookup qId).isSome || complete then
        let errlog1 := if (st.results.lookup qId).isSome then st.errlog
                       else st.errlog ++ [.warnNoResults qId]
        let results1 := if (st.results.lookup qId).isSome then st.results
                        else st.results ++ [(qId, [])]
        let ranked := (results1.lookup qId).getD []
        let gains := calc_ranked_gains ranked qq maxg
        let score_min := if 0 < gains.length then scorer (T : ℚ) gains qq.length 0 else 0
        let score_max := if 0 < gains.length then scorer (T : ℚ) gains qq.length 1 else 0
        let residual := score_max - score_min
        let num_ret := ranked.length
        let num_rel := (qq.filter fun p => 0 < p.2).length
        let num_rel_ret := (gains.filter fun g => 0 < g).length
        { st with
          results := results1
          errlog := errlog1
          totals :=
            { num_ret := st.totals.num_ret + (num_ret : ℚ)
              num_rel := st.totals.num_rel + (num_rel : ℚ)
              num_rel_ret := st.totals.num_rel_ret + (num_rel_ret : ℚ)
              score_min := st.totals.score_min + score_min
              score_max := st.totals.score_max + score_max
              residual := st.totals.residual + residual }
          totalsWritten := true
          query_count := st.query_count + 1
          records := st.records ++
            [⟨qId, num_ret, num_rel, num_rel_ret, score_min, score_max, residual⟩] }
      else { st with errlog := st.errlog ++ [.missingResults qId] }

/-- `inst_eval(results, qrels, Ts, max_graded_label, complete_qrel_queries)`
(lines 157-215): fold the per-query body over the sorted query list, then
build the aggregate record when `len(totals) > 0`. -/
def inst_eval (scorer : ℚ → List ℚ → ℕ → ℚ → ℚ)
    (results : List (String × List RankedEntry)) (qrels : List (String × QrelsQ))
    (Ts : List (String × ℤ)) (maxg : ℚ) (complete : Bool) :
    EvalState × Option SummaryRecord :=
  let st0 : EvalState :=
    { results := results, qrels := qrels, Ts := Ts, totals := Totals.zero,
      totalsWritten := false, query_count := 0, records := [], errlog := [] }
  let ql := queryList complete results qrels
  let stF := ql.foldl (processQuery scorer maxg complete) st0
  (stF, if stF.totalsWritten then
          some (mkSummary stF.totals stF.query_count stF.results.length)
        else none)

/-- The `-T` override of the main entry point (lines 236-237):
`if args.over_write_T: Ts = dict(zip(results.keys(), [args.over_write_T]*len(results)))`.
`None` and the integer `0` are falsy in Python, so they leave `Ts` as read. -/
def effectiveTs (results : List (String × List RankedEntry))
    (Ts : List (String × ℤ)) (o : Option ℤ) : List (String × ℤ) :=
  match o with
  | none => Ts
  | some c => if c = 0 then Ts else (results.map Prod.fst).map fun k => (k, c)

/-! ## Theorems -/

theorem Tis_succ (T : ℚ) (r : ℕ → ℚ) (k : ℕ) :
    Tis T r (k + 1) = Tis T r k - r (k + 1) := rfl

theorem Wf_succ (T : ℚ) (r : ℕ → ℚ) (k : ℕ) :
    Wf T r (k + 1) = Wf T r k * Cf T r (k + 1) := rfl

/-- The loop state is described by the closed forms. -/
theorem instLoop_eq (T : ℚ) (r : ℕ → ℚ) (k : ℕ) :
    instLoop T r k =
      { score := scoreSum T r k, sumW := weightSum T r k,
        W := Wf T r k, Ti := Tis T r k } := by
  induction k with
  | zero => simp [instLoop, loopInit, scoreSum, weightSum, Wf, Tis]
  | succ k ih =>
    rw [instLoop, ih]
    simp only [instStep, scoreSum, weightSum, Finset.sum_range_succ, Wf_succ, Cf, gq, xv,
      Tis_succ, LoopState.mk.injEq]

theorem instLoop_score (T : ℚ) (r : ℕ → ℚ) (k : ℕ) :
    (instLoop T r k).score = scoreSum T r k := by rw [instLoop_eq]

theorem instLoop_sumW (T : ℚ) (r : ℕ → ℚ) (k : ℕ) :
    (instLoop T r k).sumW = weightSum T r k := by rw [instLoop_eq]

theorem inst_algorithm_eq (T : ℚ) (g : List ℚ) (n : ℕ) (d : ℚ) :
    inst_algorithm T g n d =
      scoreSum T (rVal g n d) (maxN T n - 1) / weightSum T (rVal g n d) (maxN T n - 1) := by
  rw [inst_algorithm, instLoop_score, instLoop_sumW]

/-! ### Elementary bounds -/

theorem Tis_closed (T : ℚ) (r : ℕ → ℚ) (k : ℕ) :
    Tis T r k = T - ∑ j in Finset.range k, r (j + 1) := by
  induction k with
  | zero => simp [Tis]
  | succ k ih => rw [Tis_succ, ih, Finset.sum_range_succ]; ring

theorem xv_ge_two (T : ℚ) (r : ℕ → ℚ) (hT : 1 ≤ T) (hr : ∀ i, r i ≤ 1) (k : ℕ) :
    2 ≤ xv T r k := by
  have hsum : ∑ j in Finset.range k, r (j + 1) ≤ (k : ℚ) := by
    calc ∑ j in Finset.range k, r (j + 1) ≤ ∑ _j in Finset.range k, (1 : ℚ) :=
          Finset.sum_le_sum fun j _ => hr (j + 1)
      _ = (k : ℚ) := by simp
  rw [xv, Tis_closed]
  linarith

theorem xv_succ_sub (T : ℚ) (r : ℕ → ℚ) (k : ℕ) :
    xv T r (k + 1) = xv T r k + 1 - r (k + 1) := by
  rw [xv, xv, Tis_succ]
  push_cast
  ring

theorem gq_nonneg (y : ℚ) : 0 ≤ gq y := by
  rw [gq]; positivity

theorem gq_pos (y : ℚ) (hy : 2 ≤ y) : 0 < gq y := by
  have h0 : 0 < y := by linarith
  have h1 : 0 < y - 1 := by linarith
  rw [gq]
  positivity

theorem gq_mono (a b : ℚ) (ha : 1 ≤ a) (hab : a ≤ b) : gq a ≤ gq b := by
  have ha0 : 0 < a := by linarith
  have hb0 : 0 < b := by linarith
  have h1 : 0 ≤ (a - 1) / a := div_nonneg (by linarith) ha0.le
  have h2 : (a - 1) / a ≤ (b - 1) / b := by
    rw [div_le_div_iff₀ ha0 hb0]
    nlinarith
  rw [gq, gq]
  exact pow_le_pow_left₀ h1 h2 2

theorem Wf_nonneg (T : ℚ) (r : ℕ → ℚ) (k : ℕ) : 0 ≤ Wf T r k := by
  induction k with
  | zero => norm_num [Wf]
  | succ k ih => rw [Wf_succ]; exact mul_nonneg ih (gq_nonneg _)

theorem weightSum_ge_one (T : ℚ) (r : ℕ → ℚ) (M : ℕ) (hM : 1 ≤ M) :
    1 ≤ weightSum T r M := by
  have h0 : (0 : ℕ) ∈ Finset.range M := Finset.mem_range.2 (by omega)
  have h := Finset.single_le_sum (f := fun j => Wf T r j)
    (fun i _ => Wf_nonneg T r i) h0
  simpa [Wf, weightSum] using h

theorem weightSum_pos (T : ℚ) (r : ℕ → ℚ) (M : ℕ) (hM : 1 ≤ M) :
    0 < weightSum T r M :=
  lt_of_lt_of_le one_pos (weightSum_ge_one T r M hM)

theorem scoreSum_nonneg (T : ℚ) (r : ℕ → ℚ) (M : ℕ) (hr : ∀ i, 0 ≤ r i) :
    0 ≤ scoreSum T r M :=
  Finset.sum_nonneg fun _j _ => mul_nonneg (hr _) (Wf_nonneg _ _ _)

/-! ### Potential algebra -/

theorem psiq_nonneg (y : ℚ) (hy : 2 ≤ y) : 0 ≤ psiq y := by
  have h : (0 : ℚ) < 2 * y - 1 := by linarith
  rw [psiq]
  positivity

theorem psiq_eq_one_add_phiq (y : ℚ) (hy : 2 ≤ y) : psiq y = 1 + phiq y := by
  have h : (2 : ℚ) * y - 1 ≠ 0 := by intro h0; nlinarith
  rw [psiq, phiq]
  field_simp
  ring

theorem gq_mul_psiq (y : ℚ) (hy : 2 ≤ y) : gq y * psiq y = phiq y := by
  have h0 : y ≠ 0 := by intro h0; nlinarith
  have h1 : (2 : ℚ) * y - 1 ≠ 0 := by intro h0; nlinarith
  rw [gq, psiq, phiq]
  field_simp

/-- `phiq` grows at most at unit speed on `[1, ∞)`. -/
theorem phiq_lipschitz (a b : ℚ) (ha : 1 ≤ a) (hab : a ≤ b) :
    phiq b - phiq a ≤ b - a := by
  have ha1 : (0 : ℚ) < 2 * a - 1 := by linarith
  have hb1 : (0 : ℚ) < 2 * b - 1 := by linarith
  have key : (b - a) - (phiq b - phiq a) =
      (b - a) * (a * (2 * b - 1) - (b - 1)) / ((2 * a - 1) * (2 * b - 1)) := by
    rw [phiq, phiq]
    field_simp
    ring
  have hnum : 0 ≤ (b - a) * (a * (2 * b - 1) - (b - 1)) := by
    have h1 : 0 ≤ b - a := by linarith
    have h2 : 0 ≤ a * (2 * b - 1) - (b - 1) := by nlinarith
    exact mul_nonneg h1 h2
  have hden : 0 < (2 * a - 1) * (2 * b - 1) := mul_pos ha1 hb1
  nlinarith [div_nonneg hnum hden.le, key]

/-- The central algebraic inequality: a drop of the base from `x` to `a`
increases `gq` by at most `(x - a) (1 - gq a) / psiq x`. -/
theorem gq_drop_bound (a x : ℚ) (ha : 1 ≤ a) (hax : a ≤ x) (hx : 2 ≤ x) :
    (gq x - gq a) * psiq x ≤ (x - a) * (1 - gq a) := by
  have ha0 : (0 : ℚ) < a := by linarith
  have hx0 : (0 : ℚ) < x := by linarith
  have hx1 : (0 : ℚ) < 2 * x - 1 := by linarith
  have key : (x - a) * (1 - gq a) - (gq x - gq a) * psiq x =
      (x - a) * (a * (2 * x - 1) - (x - 1)) / (a ^ 2 * (2 * x - 1)) := by
    rw [gq, gq, psiq]
    field_simp
    ring
  have hnum : 0 ≤ (x - a) * (a * (2 * x - 1) - (x - 1)) := by
    have h1 : 0 ≤ x - a := by linarith
    have h2 : 0 ≤ a * (2 * x - 1) - (x - 1) := by nlinarith
    exact mul_nonneg h1 h2
  have hden : 0 < a ^ 2 * (2 * x - 1) := by positivity
  nlinarith [div_nonneg hnum hden.le, key]

/-! ### The tail potential bound -/

/-- The renormalised tail gain is bounded by the potential of its entry base. -/
theorem Pt_le_psi (T : ℚ) (r : ℕ → ℚ) (hT : 1 ≤ T) (hr1 : ∀ i, r i ≤ 1) :
    ∀ fuel k, Pt T r (k + 1) fuel ≤ psiq (xv T r k) := by
  intro fuel
  induction fuel with
  | zero =>
    intro k
    have h0 : Pt T r (k + 1) 0 = 0 := rfl
    rw [h0]
    exact psiq_nonneg _ (xv_ge_two T r hT hr1 k)
  | succ fuel ih =>
    intro k
    have hx : 2 ≤ xv T r k := xv_ge_two T r hT hr1 k
    have hx1 : 2 ≤ xv T r (k + 1) := xv_ge_two T r hT hr1 (k + 1)
    have hxle : xv T r k ≤ xv T r (k + 1) := by
      rw [xv_succ_sub]
      have := hr1 (k + 1)
      linarith
    have hstep : Pt T r (k + 1) (fuel + 1) =
        r (k + 1) + Cf T r (k + 1) * Pt T r (k + 2) fuel := rfl
    have h1 : Cf T r (k + 1) * Pt T r (k + 2) fuel ≤
        Cf T r (k + 1) * psiq (xv T r (k + 1)) :=
      mul_le_mul_of_nonneg_left (ih (k + 1)) (gq_nonneg _)
    have h2 : Cf T r (k + 1) * psiq (xv T r (k + 1)) = phiq (xv T r (k + 1)) :=
      gq_mul_psiq _ hx1
    have h3 : phiq (xv T r (k + 1)) - phiq (xv T r k) ≤
        xv T r (k + 1) - xv T r k :=
      phiq_lipschitz _ _ (by linarith) hxle
    have h4 : xv T r (k + 1) - xv T r k = 1 - r (k + 1) := by
      rw [xv_succ_sub]; ring
    rw [hstep, psiq_eq_one_add_phiq _ hx]
    linarith

/-! ### Two runs differing at a single rank -/

/-- Below the modified rank the residual patience agrees. -/
theorem Tis_agree_lt (T : ℚ) (r r' : ℕ → ℚ) (j : ℕ)
    (hag : ∀ i, i ≠ j → r' i = r i) :
    ∀ k, k < j → Tis T r' k = Tis T r k := by
  intro k
  induction k with
  | zero => intro _; rfl
  | succ k ih =>
    intro hk
    rw [Tis_succ, Tis_succ, ih (by omega), hag (k + 1) (by omega)]

/-- From the modified rank on, the residual patience is shifted by the gain
difference. -/
theorem Tis_shift_ge (T : ℚ) (r r' : ℕ → ℚ) (j : ℕ)
    (hag : ∀ i, i ≠ j → r' i = r i) (hj : 1 ≤ j) :
    ∀ k, j ≤ k → Tis T r' k = Tis T r k - (r' j - r j) := by
  intro k
  induction k with
  | zero => intro hk; omega
  | succ k ih =>
    intro hk
    by_cases hkj : j = k + 1
    · subst hkj
      rw [Tis_succ, Tis_succ, Tis_agree_lt T r r' (k + 1) hag k (by omega)]
      ring
    · rw [Tis_succ, Tis_succ, ih (by omega), hag (k + 1) (by omega)]
      ring

theorem xv_agree_lt (T : ℚ) (r r' : ℕ → ℚ) (j : ℕ)
    (hag : ∀ i, i ≠ j → r' i = r i) (k : ℕ) (hk : k < j) :
    xv T r' k = xv T r k := by
  rw [xv, xv, Tis_agree_lt T r r' j hag k hk]

theorem xv_shift_ge (T : ℚ) (r r' : ℕ → ℚ) (j : ℕ)
    (hag : ∀ i, i ≠ j → r' i = r i) (hj : 1 ≤ j) (k : ℕ) (hk : j ≤ k) :
    xv T r' k = xv T r k - (r' j - r j) := by
  rw [xv, xv, Tis_shift_ge T r r' j hag hj k hk]
  ring

theorem Wf_agree_lt (T : ℚ) (r r' : ℕ → ℚ) (j : ℕ)
    (hag : ∀ i, i ≠ j → r' i = r i) :
    ∀ k, k < j → Wf T r' k = Wf T r k := by
  intro k
  induction k with
  | zero => intro _; rfl
  | succ k ih =>
    intro hk
    rw [Wf_succ, Wf_succ, ih (by omega), Cf, Cf,
      xv_agree_lt T r r' j hag (k + 1) hk]

/-- Raising a single gain only lowers the weights. -/
theorem Wf_le_of_single (T : ℚ) (r r' : ℕ → ℚ) (j : ℕ)
    (hT : 1 ≤ T) (hr1' : ∀ i, r' i ≤ 1)
    (hag : ∀ i, i ≠ j → r' i = r i) (hj : 1 ≤ j) (hle : r j ≤ r' j) :
    ∀ k, Wf T r' k ≤ Wf T r k := by
  intro k
  induction k with
  | zero => exact le_refl _
  | succ k ih =>
    by_cases hk : k + 1 < j
    · rw [Wf_agree_lt T r r' j hag (k + 1) hk]
    · have hge : j ≤ k + 1 := by omega
      rw [Wf_succ, Wf_succ]
      have h2 : 2 ≤ xv T r' (k + 1) := xv_ge_two T r' hT hr1' (k + 1)
      have hsh : xv T r' (k + 1) = xv T r (k + 1) - (r' j - r j) :=
        xv_shift_ge T r r' j hag hj (k + 1) hge
      have hC : Cf T r' (k + 1) ≤ Cf T r (k + 1) := by
        rw [Cf, Cf]
        exact gq_mono _ _ (by linarith) (by rw [hsh] at h2 ⊢; linarith)
      exact mul_le_mul ih hC (gq_nonneg _) (Wf_nonneg T r k)

/-- Key inductive bound: the weighted tail gain lost by raising the single
gain at rank `j` by `ε` is at most `ε` (relative to the weight entering the
tail). -/
theorem tail_diff_le (T : ℚ) (r r' : ℕ → ℚ) (j : ℕ)
    (hT : 1 ≤ T) (hr1 : ∀ i, r i ≤ 1) (hr1' : ∀ i, r' i ≤ 1)
    (hag : ∀ i, i ≠ j → r' i = r i) (hj : 1 ≤ j) (hle : r j ≤ r' j) :
    ∀ fuel k, j ≤ k →
      Cf T r k * Pt T r (k + 1) fuel - Cf T r' k * Pt T r' (k + 1) fuel ≤
        r' j - r j := by
  intro fuel
  induction fuel with
  | zero =>
    intro k _
    have h1 : Pt T r (k + 1) 0 = 0 := rfl
    have h2 : Pt T r' (k + 1) 0 = 0 := rfl
    rw [h1, h2]
    simp only [mul_zero, sub_zero, sub_self]
    linarith
  | succ fuel ih =>
    intro k hk
    have hεnn : 0 ≤ r' j - r j := by linarith
    have hx : 2 ≤ xv T r k := xv_ge_two T r hT hr1 k
    have hx' : 2 ≤ xv T r' k := xv_ge_two T r' hT hr1' k
    have hsh : xv T r' k = xv T r k - (r' j - r j) :=
      xv_shift_ge T r r' j hag hj k hk
    have hagk : r' (k + 1) = r (k + 1) := hag (k + 1) (by omega)
    have e1 : Pt T r (k + 1) (fuel + 1) =
        r (k + 1) + Cf T r (k + 1) * Pt T r (k + 2) fuel := rfl
    have e2 : Pt T r' (k + 1) (fuel + 1) =
        r' (k + 1) + Cf T r' (k + 1) * Pt T r' (k + 2) fuel := rfl
    have hIH : Cf T r (k + 1) * Pt T r (k + 2) fuel -
        Cf T r' (k + 1) * Pt T r' (k + 2) fuel ≤ r' j - r j := ih (k + 1) (by omega)
    have hP : Pt T r (k + 1) (fuel + 1) ≤ psiq (xv T r k) :=
      Pt_le_psi T r hT hr1 (fuel + 1) k
    have hgnn : 0 ≤ Cf T r' k := gq_nonneg _
    have hCle : Cf T r' k ≤ Cf T r k := by
      rw [Cf, Cf, hsh]
      exact gq_mono _ _ (by rw [hsh] at hx'; linarith) (by linarith)
    have hPP' : Pt T r (k + 1) (fuel + 1) - Pt T r' (k + 1) (fuel + 1) =
        Cf T r (k + 1) * Pt T r (k + 2) fuel -
          Cf T r' (k + 1) * Pt T r' (k + 2) fuel := by
      rw [e1, e2, hagk]; ring
    have t1 : Cf T r' k * (Pt T r (k + 1) (fuel + 1) - Pt T r' (k + 1) (fuel + 1)) ≤
        Cf T r' k * (r' j - r j) :=
      mul_le_mul_of_nonneg_left (by rw [hPP']; exact hIH) hgnn
    have t2 : (Cf T r k - Cf T r' k) * Pt T r (k + 1) (fuel + 1) ≤
        (Cf T r k - Cf T r' k) * psiq (xv T r k) :=
      mul_le_mul_of_nonneg_left hP (by linarith)
    have hdrop : (Cf T r k - Cf T r' k) * psiq (xv T r k) ≤
        (r' j - r j) * (1 - Cf T r' k) := by
      have hb := gq_drop_bound (xv T r' k) (xv T r k) (by linarith) (by linarith) hx
      have hCr : Cf T r k = gq (xv T r k) := rfl
      have hCr' : Cf T r' k = gq (xv T r' k) := rfl
      rw [hCr, hCr']
      have hε : xv T r k - xv T r' k = r' j - r j := by rw [hsh]; ring
      calc (gq (xv T r k) - gq (xv T r' k)) * psiq (xv T r k) ≤
            (xv T r k - xv T r' k) * (1 - gq (xv T r' k)) := hb
        _ = (r' j - r j) * (1 - gq (xv T r' k)) := by rw [hε]
    have decomp : Cf T r k * Pt T r (k + 1) (fuel + 1) -
        Cf T r' k * Pt T r' (k + 1) (fuel + 1) =
        Cf T r' k * (Pt T r (k + 1) (fuel + 1) - Pt T r' (k + 1) (fuel + 1)) +
          (Cf T r k - Cf T r' k) * Pt T r (k + 1) (fuel + 1) := by ring
    nlinarith [t1, t2, hdrop, decomp]

/-! ### Sums, tails and congruence -/

/-- The weighted tail of the score sum in terms of `Pt`. -/
theorem tail_sum_eq (T : ℚ) (r : ℕ → ℚ) :
    ∀ fuel k, ∑ jdx in Finset.Ico k (k + fuel), r (jdx + 1) * Wf T r jdx =
      Wf T r k * Pt T r (k + 1) fuel := by
  intro fuel
  induction fuel with
  | zero =>
    intro k
    have h0 : Pt T r (k + 1) 0 = 0 := rfl
    simp [h0]
  | succ fuel ih =>
    intro k
    have hlt : k < k + (fuel + 1) := by omega
    rw [Finset.sum_eq_sum_Ico_succ_bot hlt]
    have harr : k + (fuel + 1) = (k + 1) + fuel := by omega
    rw [harr, ih (k + 1)]
    have e : Pt T r (k + 1) (fuel + 1) =
        r (k + 1) + Cf T r (k + 1) * Pt T r (k + 2) fuel := rfl
    rw [e, Wf_succ]
    ring

/-- The two runs' accumulators agree if the gains agree on the evaluated ranks. -/
theorem Tis_congr (T : ℚ) (r r2 : ℕ → ℚ) :
    ∀ k, (∀ i, 1 ≤ i → i ≤ k → r i = r2 i) → Tis T r k = Tis T r2 k := by
  intro k
  induction k with
  | zero => intro _; rfl
  | succ k ih =>
    intro h
    rw [Tis_succ, Tis_succ, ih fun i h1 h2 => h i h1 (by omega),
      h (k + 1) (by omega) (by omega)]

theorem Wf_congr (T : ℚ) (r r2 : ℕ → ℚ) :
    ∀ k, (∀ i, 1 ≤ i → i ≤ k → r i = r2 i) → Wf T r k = Wf T r2 k := by
  intro k
  induction k with
  | zero => intro _; rfl
  | succ k ih =>
    intro h
    rw [Wf_succ, Wf_succ, ih fun i h1 h2 => h i h1 (by omega), Cf, Cf, xv, xv,
      Tis_congr T r r2 (k + 1) h]

theorem scoreSum_congr (T : ℚ) (r r2 : ℕ → ℚ) (M : ℕ)
    (h : ∀ i, 1 ≤ i → i ≤ M → r i = r2 i) :
    scoreSum T r M = scoreSum T r2 M := by
  refine Finset.sum_congr rfl fun jdx hjdx => ?_
  have hm := Finset.mem_range.1 hjdx
  rw [h (jdx + 1) (by omega) (by omega),
    Wf_congr T r r2 jdx fun i h1 h2 => h i h1 (by omega)]

theorem weightSum_congr (T : ℚ) (r r2 : ℕ → ℚ) (M : ℕ)
    (h : ∀ i, 1 ≤ i → i ≤ M → r i = r2 i) :
    weightSum T r M = weightSum T r2 M := by
  refine Finset.sum_congr rfl fun jdx hjdx => ?_
  have hm := Finset.mem_range.1 hjdx
  exact Wf_congr T r r2 jdx fun i h1 h2 => h i h1 (by omega)

/-- Split the score accumulator at the modified rank `j0 + 1`. -/
theorem scoreSum_split (T : ℚ) (r : ℕ → ℚ) (M j0 : ℕ) (hjM : j0 + 1 ≤ M) :
    scoreSum T r M =
      (∑ jdx in Finset.range j0, r (jdx + 1) * Wf T r jdx) +
        r (j0 + 1) * Wf T r j0 +
        ∑ jdx in Finset.Ico (j0 + 1) M, r (jdx + 1) * Wf T r jdx := by
  rw [scoreSum, Finset.range_eq_Ico,
    ← Finset.sum_Ico_consecutive _ (Nat.zero_le (j0 + 1)) hjM,
    ← Finset.range_eq_Ico, Finset.sum_range_succ]

theorem weightSum_split (T : ℚ) (r : ℕ → ℚ) (M j0 : ℕ) (hjM : j0 + 1 ≤ M) :
    weightSum T r M =
      (∑ jdx in Finset.range j0, Wf T r jdx) + Wf T r j0 +
        ∑ jdx in Finset.Ico (j0 + 1) M, Wf T r jdx := by
  rw [weightSum, Finset.range_eq_Ico,
    ← Finset.sum_Ico_consecutive _ (Nat.zero_le (j0 + 1)) hjM,
    ← Finset.range_eq_Ico, Finset.sum_range_succ]

/-- Raising the gain at a single rank can only raise the normalised score. -/
theorem ratio_mono_single (T : ℚ) (r r' : ℕ → ℚ) (j M : ℕ)
    (hT : 1 ≤ T) (hr0 : ∀ i, 0 ≤ r i) (hr1 : ∀ i, r i ≤ 1) (hr1' : ∀ i, r' i ≤ 1)
    (hj : 1 ≤ j) (hag : ∀ i, i ≠ j → r' i = r i) (hle : r j ≤ r' j) (hM : 1 ≤ M) :
    scoreSum T r M / weightSum T r M ≤ scoreSum T r' M / weightSum T r' M := by
  by_cases hjM : M < j
  · have hagM : ∀ i, 1 ≤ i → i ≤ M → r i = r' i := fun i _ h2 =>
      (hag i (by omega)).symm
    rw [scoreSum_congr T r r' M hagM, weightSum_congr T r r' M hagM]
  · push_neg at hjM
    obtain ⟨j0, rfl⟩ : ∃ j0, j = j0 + 1 := ⟨j - 1, by omega⟩
    have hD : 0 < weightSum T r M := weightSum_pos T r M hM
    have hD' : 0 < weightSum T r' M := weightSum_pos T r' M hM
    rw [div_le_div_iff₀ hD hD']
    -- split all four sums at rank j0 + 1
    have hsN := scoreSum_split T r M j0 hjM
    have hsN' := scoreSum_split T r' M j0 hjM
    have hsD := weightSum_split T r M j0 hjM
    have hsD' := weightSum_split T r' M j0 hjM
    -- the primed head agrees with the unprimed one
    have hHN : (∑ jdx in Finset.range j0, r' (jdx + 1) * Wf T r' jdx) =
        ∑ jdx in Finset.range j0, r (jdx + 1) * Wf T r jdx := by
      refine Finset.sum_congr rfl fun jdx hjdx => ?_
      have hm := Finset.mem_range.1 hjdx
      rw [hag (jdx + 1) (by omega), Wf_agree_lt T r r' (j0 + 1) hag jdx (by omega)]
    have hHD : (∑ jdx in Finset.range j0, Wf T r' jdx) =
        ∑ jdx in Finset.range j0, Wf T r jdx := by
      refine Finset.sum_congr rfl fun jdx hjdx => ?_
      have hm := Finset.mem_range.1 hjdx
      exact Wf_agree_lt T r r' (j0 + 1) hag jdx (by omega)
    have hw : Wf T r' j0 = Wf T r j0 := Wf_agree_lt T r r' (j0 + 1) hag j0 (by omega)
    -- tail comparisons
    have hTD : (∑ jdx in Finset.Ico (j0 + 1) M, Wf T r' jdx) ≤
        ∑ jdx in Finset.Ico (j0 + 1) M, Wf T r jdx :=
      Finset.sum_le_sum fun jdx _ =>
        Wf_le_of_single T r r' (j0 + 1) hT hr1' hag hj hle jdx
    have hMls : (∑ jdx in Finset.Ico (j0 + 1) M, r (jdx + 1) * Wf T r jdx) -
        (∑ jdx in Finset.Ico (j0 + 1) M, r' (jdx + 1) * Wf T r' jdx) ≤
        (r' (j0 + 1) - r (j0 + 1)) * Wf T r j0 := by
      have harr : j0 + 1 + (M - (j0 + 1)) = M := by omega
      have ht1 : (∑ jdx in Finset.Ico (j0 + 1) M, r (jdx + 1) * Wf T r jdx) =
          Wf T r (j0 + 1) * Pt T r (j0 + 2) (M - (j0 + 1)) := by
        have h := tail_sum_eq T r (M - (j0 + 1)) (j0 + 1)
        rwa [harr] at h
      have ht2 : (∑ jdx in Finset.Ico (j0 + 1) M, r' (jdx + 1) * Wf T r' jdx) =
          Wf T r' (j0 + 1) * Pt T r' (j0 + 2) (M - (j0 + 1)) := by
        have h := tail_sum_eq T r' (M - (j0 + 1)) (j0 + 1)
        rwa [harr] at h
      have hkey := tail_diff_le T r r' (j0 + 1) hT hr1 hr1' hag hj hle
        (M - (j0 + 1)) (j0 + 1) (le_refl _)
      have hwnn : 0 ≤ Wf T r j0 := Wf_nonneg T r j0
      have hmul := mul_le_mul_of_nonneg_left hkey hwnn
      rw [ht1, ht2, Wf_succ, Wf_succ, hw]
      nlinarith [hmul]
    -- nonnegativity of the pieces
    have hN0 : 0 ≤ scoreSum T r M := scoreSum_nonneg T r M hr0
    have hTDnn : 0 ≤ ∑ jdx in Finset.Ico (j0 + 1) M, Wf T r' jdx :=
      Finset.sum_nonneg fun jdx _ => Wf_nonneg T r' jdx
    -- assemble
    have hN'eq : scoreSum T r' M = scoreSum T r M +
        (r' (j0 + 1) - r (j0 + 1)) * Wf T r j0 -
        ((∑ jdx in Finset.Ico (j0 + 1) M, r (jdx + 1) * Wf T r jdx) -
          ∑ jdx in Finset.Ico (j0 + 1) M, r' (jdx + 1) * Wf T r' jdx) := by
      rw [hsN, hsN', hHN, hw]; ring
    have hD'eq : weightSum T r' M = weightSum T r M -
        ((∑ jdx in Finset.Ico (j0 + 1) M, Wf T r jdx) -
          ∑ jdx in Finset.Ico (j0 + 1) M, Wf T r' jdx) := by
      rw [hsD, hsD', hHD, hw]; ring
    have t1 : 0 ≤ ((r' (j0 + 1) - r (j0 + 1)) * Wf T r j0 -
        ((∑ jdx in Finset.Ico (j0 + 1) M, r (jdx + 1) * Wf T r jdx) -
          ∑ jdx in Finset.Ico (j0 + 1) M, r' (jdx + 1) * Wf T r' jdx)) *
        weightSum T r M :=
      mul_nonneg (by linarith) hD.le
    have t2 : 0 ≤ scoreSum T r M *
        ((∑ jdx in Finset.Ico (j0 + 1) M, Wf T r jdx) -
          ∑ jdx in Finset.Ico (j0 + 1) M, Wf T r' jdx) :=
      mul_nonneg hN0 (by linarith)
    rw [hN'eq, hD'eq]
    nlinarith [t1, t2]

/-! ### From the gain list to gain choices -/

/-- Every gain choice lies in `[0, 1]` when the stored gains are normalised
grades or the sentinel and the default lies in `[0, 1]`. -/
theorem rVal_mem_unit (gains : List ℚ) (n : ℕ) (d : ℚ)
    (hg : ∀ x ∈ gains, x = -1 ∨ (0 ≤ x ∧ x ≤ 1)) (hd0 : 0 ≤ d) (hd1 : d ≤ 1)
    (i : ℕ) : 0 ≤ rVal gains n d i ∧ rVal gains n d i ≤ 1 := by
  rw [rVal]
  split_ifs with h1 h2 h3
  · exact ⟨hd0, hd1⟩
  · exact ⟨hd0, hd1⟩
  · exact ⟨hd0, hd1⟩
  · push_neg at h2
    by_cases hlen : gains.length = 0
    · have hnil : gains = [] := List.eq_nil_of_length_eq_zero hlen
      subst hnil
      constructor <;> simp [List.getD]
    · have hlt : i - 1 < gains.length := by omega
      have hmem : gains.getD (i - 1) 0 ∈ gains := by
        rw [List.getD_eq_getElem gains 0 hlt]
        exact List.getElem_mem hlt
      rcases hg _ hmem with h | h
      · exact absurd h h3
      · exact h

/-- The gain choice is monotone in the default value `0 ≤ 1`. -/
theorem rVal_d_mono (gains : List ℚ) (n i : ℕ) :
    rVal gains n 0 i ≤ rVal gains n 1 i := by
  rw [rVal, rVal]
  split_ifs <;> norm_num

theorem hybSeq_mem_unit (gains : List ℚ) (n k : ℕ)
    (hg : ∀ x ∈ gains, x = -1 ∨ (0 ≤ x ∧ x ≤ 1)) (i : ℕ) :
    0 ≤ hybSeq gains n k i ∧ hybSeq gains n k i ≤ 1 := by
  simp only [hybSeq]
  split_ifs
  · exact rVal_mem_unit gains n 1 hg zero_le_one (le_refl 1) i
  · exact rVal_mem_unit gains n 0 hg (le_refl 0) zero_le_one i

/-- Walking the hybrid sequence from all-defaults-`0` towards
all-defaults-`1` never lowers the normalised score. -/
theorem hyb_chain (T : ℚ) (gains : List ℚ) (n M : ℕ) (hT : 1 ≤ T)
    (hg : ∀ x ∈ gains, x = -1 ∨ (0 ≤ x ∧ x ≤ 1)) (hM : 1 ≤ M) :
    ∀ k, scoreSum T (rVal gains n 0) M / weightSum T (rVal gains n 0) M ≤
      scoreSum T (hybSeq gains n k) M / weightSum T (hybSeq gains n k) M := by
  intro k
  induction k with
  | zero =>
    have hagree : ∀ i, 1 ≤ i → i ≤ M → rVal gains n 0 i = hybSeq gains n 0 i := by
      intro i h1 _
      simp only [hybSeq]
      rw [if_neg (by omega)]
    rw [scoreSum_congr T _ _ M hagree, weightSum_congr T _ _ M hagree]
  | succ k ih =>
    refine le_trans ih ?_
    have h0 := hybSeq_mem_unit gains n k hg
    have h1 := hybSeq_mem_unit gains n (k + 1) hg
    refine ratio_mono_single T (hybSeq gains n k) (hybSeq gains n (k + 1)) (k + 1) M hT
      (fun i => (h0 i).1) (fun i => (h0 i).2) (fun i => (h1 i).2) (by omega) ?_ ?_ hM
    · intro i hi
      simp only [hybSeq]
      by_cases hc : 1 ≤ i ∧ i ≤ k
      · rw [if_pos hc, if_pos ⟨hc.1, by omega⟩]
      · rw [if_neg hc, if_neg (by intro hc2; exact hc ⟨hc2.1, by omega⟩)]
    · simp only [hybSeq]
      rw [if_neg (by omega), if_pos ⟨by omega, le_refl (k + 1)⟩]
      exact rVal_d_mono gains n (k + 1)

theorem maxN_ge (T : ℚ) (n : ℕ) : 20000 ≤ maxN T n := by
  rw [maxN, Nval]
  rcases le_or_lt T 5 with h | h
  · rw [if_pos h]
    exact le_max_right n 20000
  · rw [if_neg (not_le.2 h)]
    exact le_trans (by norm_num) (le_max_right n 200000)

/-- C3: for every positive patience `T`, judged-pool size `n` and non-empty
gain sequence whose entries are normalised grades in `[0,1]` or the
unjudged sentinel `-1`, the score computed by `inst_algorithm` with
`defaultValue = 0.0` is at most the score computed with `defaultValue = 1.0`;
equivalently `score_min ≤ score_max` and `residual = score_max - score_min ≥ 0`. -/
theorem claim_C3 (T : ℚ) (gains : List ℚ) (n : ℕ)
    (hT : 1 ≤ T) (hg : ∀ x ∈ gains, x = -1 ∨ (0 ≤ x ∧ x ≤ 1)) (_hne : gains ≠ []) :
    inst_algorithm T gains n 0 ≤ inst_algorithm T gains n 1 ∧
      0 ≤ inst_algorithm T gains n 1 - inst_algorithm T gains n 0 := by
  have hM : 1 ≤ maxN T n - 1 := by
    have := maxN_ge T n
    omega
  have hchain := hyb_chain T gains n (maxN T n - 1) hT hg hM (maxN T n - 1)
  have hagree : ∀ i, 1 ≤ i → i ≤ maxN T n - 1 →
      hybSeq gains n (maxN T n - 1) i = rVal gains n 1 i := by
    intro i hi1 hi2
    simp only [hybSeq]
    rw [if_pos ⟨hi1, hi2⟩]
  rw [scoreSum_congr T _ _ _ hagree, weightSum_congr T _ _ _ hagree] at hchain
  rw [inst_algorithm_eq, inst_algorithm_eq]
  exact ⟨hchain, by linarith⟩

/-- Witness for C3 at `T = 1`, `gains = [1/2]`, `n = 1`. -/
theorem claim_C3_witness :
    inst_algorithm 1 [1/2] 1 0 ≤ inst_algorithm 1 [1/2] 1 1 ∧
      0 ≤ inst_algorithm 1 [1/2] 1 1 - inst_algorithm 1 [1/2] 1 0 :=
  claim_C3 1 [1/2] 1 (le_refl 1)
    (by intro x hx; right; rw [List.mem_singleton] at hx; subst hx; norm_num)
    (by simp)

/-! ### The loop as a fold over the visited ranks -/

theorem instLoop_eq_foldl (T : ℚ) (r : ℕ → ℚ) (k : ℕ) :
    instLoop T r k =
      (List.range' 1 k).foldl (fun s i => instStep T r i s) (loopInit T) := by
  induction k with
  | zero => rfl
  | succ k ih =>
    rw [List.range'_concat, List.foldl_append, ← ih]
    simp only [List.foldl_cons, List.foldl_nil]
    have harg : 1 + 1 * k = k + 1 := by omega
    rw [harg]
    rfl

/-- C1: for every rank `i ≥ 1` processed by the loop of `inst_algorithm`,
the loop state follows the spec recurrence: the gain `r_i` is `defaultValue`
iff `i > n` or `i > len(gains)` or `gains[i-1]` is the sentinel `-1`, and the
stored gain otherwise; `T_i = T_{i-1} - r_i` with `T_0 = T`; `score` gains
`r_i * W[i]` and `sumW` gains `W[i]`; `W[i+1] = W[i] * C_i` with
`C_i = ((i + T + T_i - 1)/(i + T + T_i))^2` and `W[1] = 1`; the function
returns `score / sumW`. -/
theorem claim_C1 (T : ℚ) (gains : List ℚ) (n : ℕ) (d : ℚ) (i : ℕ) (hi : 1 ≤ i) :
    rVal gains n d i =
      (if n < i ∨ gains.length < i ∨ gains.getD (i - 1) 0 = -1 then d
       else gains.getD (i - 1) 0) ∧
    (instLoop T (rVal gains n d) i).Ti =
      (instLoop T (rVal gains n d) (i - 1)).Ti - rVal gains n d i ∧
    (instLoop T (rVal gains n d) i).score =
      (instLoop T (rVal gains n d) (i - 1)).score +
        rVal gains n d i * (instLoop T (rVal gains n d) (i - 1)).W ∧
    (instLoop T (rVal gains n d) i).sumW =
      (instLoop T (rVal gains n d) (i - 1)).sumW +
        (instLoop T (rVal gains n d) (i - 1)).W ∧
    (instLoop T (rVal gains n d) i).W =
      (instLoop T (rVal gains n d) (i - 1)).W *
        (((i : ℚ) + T + (instLoop T (rVal gains n d) i).Ti - 1) /
          ((i : ℚ) + T + (instLoop T (rVal gains n d) i).Ti)) ^ 2 ∧
    (instLoop T (rVal gains n d) 0).W = 1 ∧
    (instLoop T (rVal gains n d) 0).Ti = T ∧
    inst_algorithm T gains n d =
      (instLoop T (rVal gains n d) (maxN T n - 1)).score /
        (instLoop T (rVal gains n d) (maxN T n - 1)).sumW := by
  obtain ⟨i0, rfl⟩ : ∃ i0, i = i0 + 1 := ⟨i - 1, by omega⟩
  refine ⟨?_, rfl, rfl, rfl, rfl, rfl, rfl, rfl⟩
  rw [rVal]
  split_ifs <;> tauto

/-- Witness for C1 at `T = 1`, `gains = []`, `n = 0`, `d = 0`, `i = 1`. -/
theorem claim_C1_witness :
    (instLoop 1 (rVal [] 0 0) 1).Ti =
      (instLoop 1 (rVal [] 0 0) 0).Ti - rVal [] 0 0 1 :=
  (claim_C1 1 [] 0 0 1 (le_refl 1)).2.1

/-- C2: the horizon is `20000` for `T ≤ 5` and `200000` otherwise and
`maxN = max(n, N)`; but the loop `for i in range(1, maxN)` visits exactly
the ranks `1 .. maxN - 1`, so rank `max(n, N)` itself is never processed:
at `T = 1`, `n = 0` the horizon is `20000` yet `20000` is not among the
visited ranks. -/
theorem claim_C2 :
    (∀ T : ℚ, T ≤ 5 → Nval T = 20000) ∧
    (∀ T : ℚ, ¬ T ≤ 5 → Nval T = 200000) ∧
    (∀ (T : ℚ) (n : ℕ), maxN T n = max n (Nval T)) ∧
    (∀ (T : ℚ) (g : List ℚ) (n : ℕ) (d : ℚ),
      inst_algorithm T g n d =
        ((ranksList T n).foldl (fun s i => instStep T (rVal g n d) i s)
            (loopInit T)).score /
          ((ranksList T n).foldl (fun s i => instStep T (rVal g n d) i s)
            (loopInit T)).sumW) ∧
    ranksList 1 0 = List.range' 1 19999 ∧
    maxN 1 0 = 20000 ∧
    (20000 : ℕ) ∉ ranksList 1 0 := by
  have hm : maxN 1 0 = 20000 := by rw [maxN, Nval]; norm_num
  refine ⟨fun T h => by rw [Nval, if_pos h], fun T h => by rw [Nval, if_neg h],
    fun T n => rfl, fun T g n d => ?_, ?_, hm, ?_⟩
  · rw [inst_algorithm, ranksList, ← instLoop_eq_foldl]
  · rw [ranksList, hm]
  · rw [ranksList, hm]
    intro hmem
    have := List.mem_range'_1.1 hmem
    omega

/-- Witness for C2's conditional horizon facts at `T = 1` and `T = 6`. -/
theorem claim_C2_witness : Nval 1 = 20000 ∧ Nval 6 = 200000 :=
  ⟨claim_C2.1 1 (by norm_num), claim_C2.2.1 6 (by norm_num)⟩

/-- Counterexample to C4 as stated: the gain list `[0]` for `n = 1`, `T = 1`
contains no sentinel and has length `≥ n`, yet the two scorer invocations
differ, because every rank beyond `n` still reads `defaultValue`. -/
theorem claim_C4_counterexample :
    (∀ x ∈ [(0 : ℚ)], x ≠ -1) ∧ (1 : ℕ) ≤ ([(0 : ℚ)]).length ∧
    inst_algorithm 1 [0] 1 0 ≠ inst_algorithm 1 [0] 1 1 := by
  have hg : ∀ x ∈ [(0 : ℚ)], x = -1 ∨ (0 ≤ x ∧ x ≤ 1) := by
    intro x hx
    rw [List.mem_singleton] at hx
    subst hx
    right
    norm_num
  have hM : maxN 1 1 = 20000 := by rw [maxN, Nval]; norm_num
  refine ⟨?_, by norm_num, ?_⟩
  · intro x hx
    rw [List.mem_singleton] at hx
    subst hx
    norm_num
  -- the defaultValue-0 score is exactly 0
  have hzero : ∀ i, rVal [0] 1 0 i = 0 := by
    intro i
    rw [rVal]
    split_ifs
    · rfl
    · rfl
    · rfl
    · cases hc : i - 1 with
      | zero => simp [hc]
      | succ m => simp [hc]
  have hmin : inst_algorithm 1 [0] 1 0 = 0 := by
    rw [inst_algorithm_eq]
    have hs : scoreSum 1 (rVal [0] 1 0) (maxN 1 1 - 1) = 0 :=
      Finset.sum_eq_zero fun j _ => by rw [hzero]; ring
    rw [hs, zero_div]
  -- the defaultValue-1 score is positive
  have hr1unit := rVal_mem_unit [0] 1 1 hg zero_le_one (le_refl 1)
  have hr1le : ∀ i, rVal [0] 1 1 i ≤ 1 := fun i => (hr1unit i).2
  have hxv : 2 ≤ xv 1 (rVal [0] 1 1) 1 := xv_ge_two 1 _ (le_refl 1) hr1le 1
  have hW1 : 0 < Wf 1 (rVal [0] 1 1) 1 := by
    have he : Wf 1 (rVal [0] 1 1) 1 = Wf 1 (rVal [0] 1 1) 0 * Cf 1 (rVal [0] 1 1) 1 := rfl
    have h0 : Wf 1 (rVal [0] 1 1) 0 = 1 := rfl
    rw [he, h0, one_mul, Cf]
    exact gq_pos _ hxv
  have hr2 : rVal [0] 1 1 2 = 1 := by norm_num [rVal]
  have hscore : 0 < scoreSum 1 (rVal [0] 1 1) (maxN 1 1 - 1) := by
    refine Finset.sum_pos' (fun j _ => mul_nonneg ((hr1unit (j + 1)).1) (Wf_nonneg _ _ _)) ?_
    refine ⟨1, Finset.mem_range.2 (by omega), ?_⟩
    rw [hr2, one_mul]
    exact hW1
  have hmax : 0 < inst_algorithm 1 [0] 1 1 := by
    rw [inst_algorithm_eq]
    exact div_pos hscore (weightSum_pos _ _ _ (by omega))
  rw [hmin]
  exact ne_of_lt hmax

/-- C4 (amended): when no processed rank falls back to the default — the
gain sequence has no sentinel, its length covers every processed rank, and
`n` covers every processed rank (so `n ≥ max(n, N) - 1`, not merely
`len ≥ n`) — the two scorer invocations with `defaultValue` `0.0` and `1.0`
return exactly equal results. -/
theorem claim_C4_amended (T : ℚ) (gains : List ℚ) (n : ℕ)
    (hs : ∀ x ∈ gains, x ≠ -1) (h1 : maxN T n - 1 ≤ n)
    (h2 : maxN T n - 1 ≤ gains.length) :
    inst_algorithm T gains n 0 = inst_algorithm T gains n 1 := by
  have hagree : ∀ i, 1 ≤ i → i ≤ maxN T n - 1 → rVal gains n 0 i = rVal gains n 1 i := by
    intro i hi1 hi2
    rw [rVal, rVal]
    have hc1 : ¬ n < i := by omega
    have hc2 : ¬ gains.length < i := by omega
    have hlt : i - 1 < gains.length := by omega
    have hmem : gains.getD (i - 1) 0 ∈ gains := by
      rw [List.getD_eq_getElem gains 0 hlt]
      exact List.getElem_mem hlt
    rw [if_neg hc1, if_neg hc1, if_neg hc2, if_neg hc2,
      if_neg (hs _ hmem), if_neg (hs _ hmem)]
  rw [inst_algorithm_eq, inst_algorithm_eq,
    scoreSum_congr T _ _ _ hagree, weightSum_congr T _ _ _ hagree]

/-- Witness for the amended C4 at `T = 1`, `n = 20000`,
`gains = replicate 19999 0`. -/
theorem claim_C4_amended_witness :
    inst_algorithm 1 (List.replicate 19999 (0 : ℚ)) 20000 0 =
      inst_algorithm 1 (List.replicate 19999 (0 : ℚ)) 20000 1 := by
  have hm : maxN 1 20000 = 20000 := by rw [maxN, Nval]; norm_num
  refine claim_C4_amended 1 _ 20000 ?_ (by omega) ?_
  · intro x hx
    rw [List.eq_of_mem_replicate hx]
    norm_num
  · rw [List.length_replicate]
    omega

/-- C10: the divisor of the final division `score / sumW` of
`inst_algorithm` is at least `1` (rank 1 is always processed and contributes
`W[1] = 1`, and all weights are squares, hence nonnegative), so the division
by zero is unreachable. -/
theorem claim_C10 (T : ℚ) (gains : List ℚ) (n : ℕ) (d : ℚ) (_hT : 1 ≤ T)
    (_hg : ∀ x ∈ gains, -1 ≤ x ∧ x ≤ 1) :
    1 ≤ (instLoop T (rVal gains n d) (maxN T n - 1)).sumW ∧
    (instLoop T (rVal gains n d) (maxN T n - 1)).sumW ≠ 0 ∧
    inst_algorithm T gains n d =
      (instLoop T (rVal gains n d) (maxN T n - 1)).score /
        (instLoop T (rVal gains n d) (maxN T n - 1)).sumW := by
  have hM : 1 ≤ maxN T n - 1 := by
    have := maxN_ge T n
    omega
  have h1 : 1 ≤ weightSum T (rVal gains n d) (maxN T n - 1) :=
    weightSum_ge_one _ _ _ hM
  have h2 : (instLoop T (rVal gains n d) (maxN T n - 1)).sumW =
      weightSum T (rVal gains n d) (maxN T n - 1) := instLoop_sumW _ _ _
  exact ⟨by rw [h2]; exact h1, by rw [h2]; linarith, rfl⟩

/-- Witness for C10 at `T = 1`, `gains = []`, `n = 0`, `d = 0`. -/
theorem claim_C10_witness :
    1 ≤ (instLoop 1 (rVal [] 0 0) (maxN 1 0 - 1)).sumW :=
  (claim_C10 1 [] 0 0 (le_refl 1) (by simp)).1

/-! ### The gain mapper -/

theorem foldl_append_map {α β : Type} (f : α → β) :
    ∀ (l : List α) (acc : List β),
      l.foldl (fun a e => a ++ [f e]) acc = acc ++ l.map f := by
  intro l
  induction l with
  | nil => intro acc; simp
  | cons e l ih =>
    intro acc
    rw [List.foldl_cons, ih, List.map_cons]
    simp

/-- The append loop of `calc_ranked_gains` builds exactly the pointwise map. -/
theorem calc_ranked_gains_eq_map (rl : List RankedEntry) (q : QrelsQ) (m : ℚ) :
    calc_ranked_gains rl q m =
      rl.map fun e =>
        match q.lookup e.1 with
        | some rel => rel / m
        | none => -1 := by
  rw [calc_ranked_gains]
  exact (foldl_append_map _ rl []).trans (List.nil_append _)

/-- C5: `calc_ranked_gains` returns a gain sequence of the same length as the
ranked list, whose entry for each ranked document is `grade / max_grade` when
the document is judged and the sentinel `-1.0` otherwise.  (The embedding is
a pure function of its arguments, matching the absence of side effects in
the source, which only appends to a fresh list.) -/
theorem claim_C5 (rl : List RankedEntry) (q : QrelsQ) (m : ℚ) (_hm : 0 < m) :
    (calc_ranked_gains rl q m).length = rl.length ∧
    ∀ k (hk : k < rl.length),
      (calc_ranked_gains rl q m).getD k 0 =
        (match q.lookup (rl.get ⟨k, hk⟩).1 with
         | some rel => rel / m
         | none => -1) := by
  rw [calc_ranked_gains_eq_map]
  refine ⟨List.length_map rl _, ?_⟩
  intro k hk
  have hk2 : k < (rl.map fun e =>
      match q.lookup e.1 with
      | some rel => rel / m
      | none => -1).length := by simpa using hk
  rw [List.getD_eq_getElem _ _ hk2, List.getElem_map]
  rfl

/-- Witness for C5 at a one-document ranking with a judged document. -/
theorem claim_C5_witness :
    (0 : ℚ) < 2 ∧
      (calc_ranked_gains [("d1", "1", (0 : ℚ), "run1")] [("d1", (2 : ℚ))] 2).length = 1 :=
  ⟨by norm_num, (claim_C5 [("d1", "1", (0 : ℚ), "run1")] [("d1", (2 : ℚ))] 2 (by norm_num)).1⟩

/-! ### The evaluation driver -/

/-- A query with no T entry is skipped: only the error log changes. -/
theorem processQuery_skip_noT (scorer : ℚ → List ℚ → ℕ → ℚ → ℚ) (maxg : ℚ)
    (complete : Bool) (st : EvalState) (qId : String)
    (h : st.Ts.lookup qId = none) :
    processQuery scorer maxg complete st qId =
      { st with errlog := st.errlog ++ [.missingT qId] } := by
  simp only [processQuery, h]

/-- A query with a T entry but no judgment entry is skipped: only the error
log changes. -/
theorem processQuery_skip_noQrels (scorer : ℚ → List ℚ → ℕ → ℚ → ℚ) (maxg : ℚ)
    (complete : Bool) (st : EvalState) (qId : String) (T : ℤ)
    (hT : st.Ts.lookup qId = some T) (h : st.qrels.lookup qId = none) :
    processQuery scorer maxg complete st qId =
      { st with errlog := st.errlog ++ [.missingQrels qId] } := by
  simp only [processQuery, hT, h]

/-- C6: a query with no T value, or with no judgment entries, is skipped —
the step changes nothing but the diagnostic log, the fold simply continues
with the remaining queries, and the skipped query does not contribute to
`query_count`, which is the denominator used by the aggregate record. -/
theorem claim_C6 (scorer : ℚ → List ℚ → ℕ → ℚ → ℚ) (maxg : ℚ) (complete : Bool)
    (st : EvalState) (qId : String) (rest : List String)
    (hskip : st.Ts.lookup qId = none ∨ st.qrels.lookup qId = none) :
    (processQuery scorer maxg complete st qId).query_count = st.query_count ∧
    (processQuery scorer maxg complete st qId).totals = st.totals ∧
    (processQuery scorer maxg complete st qId).records = st.records ∧
    (processQuery scorer maxg complete st qId).results = st.results ∧
    (processQuery scorer maxg complete st qId).totalsWritten = st.totalsWritten ∧
    List.foldl (processQuery scorer maxg complete) st (qId :: rest) =
      List.foldl (processQuery scorer maxg complete)
        (processQuery scorer maxg complete st qId) rest ∧
    (∀ (t : Totals) (qc numres : ℕ),
      (mkSummary t qc numres).score_min = t.score_min / (qc : ℚ) ∧
      (mkSummary t qc numres).score_max = t.score_max / (qc : ℚ) ∧
      (mkSummary t qc numres).residual = t.residual / (qc : ℚ)) := by
  have he : ∃ ev : EvalErr, processQuery scorer maxg complete st qId =
      { st with errlog := st.errlog ++ [ev] } := by
    rcases hskip with h | h
    · exact ⟨.missingT qId, processQuery_skip_noT scorer maxg complete st qId h⟩
    · cases hT : st.Ts.lookup qId with
      | none => exact ⟨.missingT qId, processQuery_skip_noT scorer maxg complete st qId hT⟩
      | some T =>
        exact ⟨.missingQrels qId,
          processQuery_skip_noQrels scorer maxg complete st qId T hT h⟩
  obtain ⟨ev, he⟩ := he
  rw [he]
  exact ⟨rfl, rfl, rfl, rfl, rfl, by rw [List.foldl_cons, he],
    fun t qc numres => ⟨rfl, rfl, rfl⟩⟩

/-- Witness for C6: a universe with one query and empty dictionaries. -/
theorem claim_C6_witness :
    (processQuery inst_algorithm 1 false
      { results := [], qrels := [], Ts := [], totals := Totals.zero,
        totalsWritten := false, query_count := 0, records := [], errlog := [] }
      "q1").query_count = 0 :=
  (claim_C6 inst_algorithm 1 false
    { results := [], qrels := [], Ts := [], totals := Totals.zero,
      totalsWritten := false, query_count := 0, records := [], errlog := [] }
    "q1" [] (Or.inl rfl)).1

theorem lookup_append_right {α β : Type} [BEq α] (l1 l2 : List (α × β)) (a : α)
    (h : l1.lookup a = none) : (l1 ++ l2).lookup a = l2.lookup a := by
  induction l1 with
  | nil => simp
  | cons p l1 ih =>
    obtain ⟨k, v⟩ := p
    cases hbeq : a == k with
    | true => simp [List.lookup, hbeq] at h
    | false =>
      simp only [List.lookup, hbeq] at h
      rw [List.cons_append]
      simp only [List.lookup, hbeq]
      exact ih h

/-- C7: an evaluated query whose gain sequence is empty (its ranked list is
empty or missing) gets `score_min = score_max = residual = 0` in its record,
for an arbitrary scorer in place of `inst_algorithm` — the scorer is not
invoked. -/
theorem claim_C7 (scorer : ℚ → List ℚ → ℕ → ℚ → ℚ) (maxg : ℚ) (complete : Bool)
    (st : EvalState) (qId : String) (T : ℤ) (qq : QrelsQ)
    (hT : st.Ts.lookup qId = some T) (hq : st.qrels.lookup qId = some qq)
    (hin : (st.results.lookup qId).isSome = true ∨ complete = true)
    (hempty : (st.results.lookup qId).getD [] = []) :
    (processQuery scorer maxg complete st qId).records =
      st.records ++ [⟨qId, 0, (qq.filter fun p => 0 < p.2).length, 0, 0, 0, 0⟩] ∧
    (processQuery scorer maxg complete st qId).query_count = st.query_count + 1 := by
  have hcond : ((st.results.lookup qId).isSome || complete) = true := by
    rcases hin with h | h <;> simp [h]
  have hranked : ((if (st.results.lookup qId).isSome then st.results
      else st.results ++ [(qId, [])]).lookup qId).getD [] = ([] : List RankedEntry) := by
    cases hs : (st.results.lookup qId).isSome with
    | true => rw [if_pos rfl]; exact hempty
    | false =>
      rw [if_neg (by simp [hs])]
      have hnone : st.results.lookup qId = none := by
        cases ho : st.results.lookup qId
        · rfl
        · rw [ho] at hs; simp at hs
      rw [lookup_append_right _ _ _ hnone]
      simp [List.lookup]
  simp only [processQuery, hT, hq, hcond, if_true, hranked]
  have hgains : calc_ranked_gains [] qq maxg = [] := rfl
  rw [hgains]
  norm_num

/-- Witness for C7: one judged query with no retrieval results, complete
mode. -/
theorem claim_C7_witness :
    (processQuery inst_algorithm 1 true
      { results := [], qrels := [("q1", [("d1", (1 : ℚ))])], Ts := [("q1", 3)],
        totals := Totals.zero, totalsWritten := false, query_count := 0,
        records := [], errlog := [] } "q1").query_count = 0 + 1 :=
  (claim_C7 inst_algorithm 1 true
    { results := [], qrels := [("q1", [("d1", (1 : ℚ))])], Ts := [("q1", 3)],
      totals := Totals.zero, totalsWritten := false, query_count := 0,
      records := [], errlog := [] } "q1" 3 [("d1", (1 : ℚ))]
    (by simp [List.lookup]) (by simp [List.lookup]) (Or.inr rfl) rfl).2

theorem lookup_map_const {β : Type} (keys : List String) (c : β) (a : String)
    (h : a ∈ keys) : (keys.map fun k => (k, c)).lookup a = some c := by
  induction keys with
  | nil => cases h
  | cons k keys ih =>
    rw [List.map_cons]
    cases hbeq : a == k with
    | true => simp [List.lookup, hbeq]
    | false =>
      have hne : a ≠ k := by
        intro heq
        rw [heq] at hbeq
        simp at hbeq
      have hmem : a ∈ keys := by
        cases h with
        | head => exact absurd rfl hne
        | tail _ h2 => exact h2
      simp only [List.lookup, hbeq]
      exact ih hmem

/-- Counterexample to C8 as stated: with `-T 7` supplied, the override
rebuilds the T table from the keys of the result set only; in complete mode
a judged query `q1` absent from the results is still considered, finds no T
value, and is skipped with a `missingT` diagnostic. -/
theorem claim_C8_counterexample :
    effectiveTs ([] : List (String × List RankedEntry)) [("q1", (3 : ℤ))] (some 7) = [] ∧
    (inst_eval inst_algorithm [] [("q1", [("d1", (1 : ℚ))])]
        (effectiveTs [] [("q1", (3 : ℤ))] (some 7)) 1 true).1.errlog =
      [EvalErr.missingT "q1"] ∧
    (inst_eval inst_algorithm [] [("q1", [("d1", (1 : ℚ))])]
        (effectiveTs [] [("q1", (3 : ℤ))] (some 7)) 1 true).1.query_count = 0 ∧
    (inst_eval inst_algorithm [] [("q1", [("d1", (1 : ℚ))])]
        (effectiveTs [] [("q1", (3 : ℤ))] (some 7)) 1 true).2 = none := by
  have hTs : effectiveTs ([] : List (String × List RankedEntry))
      [("q1", (3 : ℤ))] (some 7) = [] := rfl
  have hstep : inst_eval inst_algorithm [] [("q1", [("d1", (1 : ℚ))])] [] 1 true =
      ({ results := [], qrels := [("q1", [("d1", (1 : ℚ))])], Ts := [],
         totals := Totals.zero, totalsWritten := false, query_count := 0,
         records := [], errlog := [EvalErr.missingT "q1"] }, none) := by
    simp only [inst_eval, queryList, sortStrings, List.map_cons, List.map_nil,
      List.mergeSort_singleton, if_true]
    rw [List.foldl_cons, List.foldl_nil,
      processQuery_skip_noT inst_algorithm 1 true
        { results := [], qrels := [("q1", [("d1", (1 : ℚ))])], Ts := [],
          totals := Totals.zero, totalsWritten := false, query_count := 0,
          records := [], errlog := [] } "q1" rfl]
    simp
  rw [hTs, hstep]
  exact ⟨rfl, rfl, rfl, rfl⟩

/-- C8 (amended): with a nonzero `-T c` override, every query of the
results-based query universe (the non-complete mode, and in complete mode
every considered query that also appears in the results) gets `T = c`; only
judged queries absent from the results can still lack a T value. -/
theorem claim_C8_amended (results : List (String × List RankedEntry))
    (Ts : List (String × ℤ)) (qrels : List (String × QrelsQ)) (c : ℤ)
    (hc : c ≠ 0) :
    (∀ qId ∈ queryList false results qrels,
      (effectiveTs results Ts (some c)).lookup qId = some c) ∧
    (∀ qId ∈ results.map Prod.fst,
      (effectiveTs results Ts (some c)).lookup qId = some c) := by
  have hkey : ∀ qId ∈ results.map Prod.fst,
      (effectiveTs results Ts (some c)).lookup qId = some c := by
    intro qId hq
    rw [effectiveTs]
    rw [if_neg hc]
    exact lookup_map_const _ c qId hq
  refine ⟨?_, hkey⟩
  intro qId hq
  rw [queryList, if_neg (by simp), sortStrings] at hq
  exact hkey qId (List.mem_mergeSort.1 hq)

/-- Witness for the amended C8 at a one-query result set and `-T 7`. -/
theorem claim_C8_amended_witness :
    (effectiveTs [("q1", [])] [] (some 7)).lookup "q1" = some 7 :=
  (claim_C8_amended [("q1", [])] [] [] 7 (by norm_num)).2 "q1" (by simp)

/-- A driver step never writes the judgment set or the T table. -/
theorem processQuery_frame (scorer : ℚ → List ℚ → ℕ → ℚ → ℚ) (maxg : ℚ)
    (complete : Bool) (st : EvalState) (qId : String) :
    (processQuery scorer maxg complete st qId).qrels = st.qrels ∧
    (processQuery scorer maxg complete st qId).Ts = st.Ts := by
  cases hT : st.Ts.lookup qId with
  | none =>
    rw [processQuery_skip_noT scorer maxg complete st qId hT]
    exact ⟨rfl, rfl⟩
  | some T =>
    cases hq : st.qrels.lookup qId with
    | none =>
      rw [processQuery_skip_noQrels scorer maxg complete st qId T hT hq]
      exact ⟨rfl, rfl⟩
    | some qq =>
      simp only [processQuery, hT, hq]
      cases hcond : ((st.results.lookup qId).isSome || complete) with
      | true => simp [hcond]
      | false => simp [hcond]

theorem foldl_frame (scorer : ℚ → List ℚ → ℕ → ℚ → ℚ) (maxg : ℚ) (complete : Bool) :
    ∀ (ql : List String) (st : EvalState),
      (ql.foldl (processQuery scorer maxg complete) st).qrels = st.qrels ∧
      (ql.foldl (processQuery scorer maxg complete) st).Ts = st.Ts := by
  intro ql
  induction ql with
  | nil => intro st; exact ⟨rfl, rfl⟩
  | cons q ql ih =>
    intro st
    rw [List.foldl_cons]
    obtain ⟨h1, h2⟩ := ih (processQuery scorer maxg complete st q)
    obtain ⟨g1, g2⟩ := processQuery_frame scorer maxg complete st q
    exact ⟨h1.trans g1, h2.trans g2⟩

/-- Outside complete mode a driver step never writes the result set. -/
theorem processQuery_results_noncomplete (scorer : ℚ → List ℚ → ℕ → ℚ → ℚ)
    (maxg : ℚ) (st : EvalState) (qId : String) :
    (processQuery scorer maxg false st qId).results = st.results := by
  cases hT : st.Ts.lookup qId with
  | none => rw [processQuery_skip_noT _ _ _ _ _ hT]
  | some T =>
    cases hq : st.qrels.lookup qId with
    | none => rw [processQuery_skip_noQrels _ _ _ _ _ _ hT hq]
    | some qq =>
      simp only [processQuery, hT, hq, Bool.or_false]
      cases hs : (st.results.lookup qId).isSome with
      | true => simp [hs]
      | false => simp [hs]

theorem foldl_results_noncomplete (scorer : ℚ → List ℚ → ℕ → ℚ → ℚ) (maxg : ℚ) :
    ∀ (ql : List String) (st : EvalState),
      (ql.foldl (processQuery scorer maxg false) st).results = st.results := by
  intro ql
  induction ql with
  | nil => intro st; rfl
  | cons q ql ih =>
    intro st
    rw [List.foldl_cons, ih (processQuery scorer maxg false st q),
      processQuery_results_noncomplete]

/-- Counterexample to C9 as stated: in complete mode, a judged query with a
T value but absent from the loaded results makes the driver insert an empty
ranked list into the results dictionary (`results[qId] = []`), so the result
set is mutated during the pass. -/
theorem claim_C9_counterexample :
    (inst_eval inst_algorithm [] [("q1", [("d1", (1 : ℚ))])]
        [("q1", (3 : ℤ))] 1 true).1.results = [("q1", [])] ∧
    (inst_eval inst_algorithm [] [("q1", [("d1", (1 : ℚ))])]
        [("q1", (3 : ℤ))] 1 true).1.results ≠ ([] : List (String × List RankedEntry)) := by
  have hres : (inst_eval inst_algorithm [] [("q1", [("d1", (1 : ℚ))])]
      [("q1", (3 : ℤ))] 1 true).1.results = [("q1", [])] := by
    simp only [inst_eval, queryList, sortStrings, List.map_cons, List.map_nil,
      List.mergeSort_singleton, if_true]
    rw [List.foldl_cons, List.foldl_nil]
    simp [processQuery, List.lookup]
  exact ⟨hres, by rw [hres]; simp⟩

/-- C9 (amended): during a whole evaluation pass the driver never writes the
judgment set or the T table, and outside complete mode it never writes the
result set either; in complete mode its only write to the loaded data is the
insertion of empty ranked lists for evaluated queries missing from the
results (the accumulators it owns are the rest of the state). -/
theorem claim_C9_amended (scorer : ℚ → List ℚ → ℕ → ℚ → ℚ)
    (results : List (String × List RankedEntry)) (qrels : List (String × QrelsQ))
    (Ts : List (String × ℤ)) (maxg : ℚ) (complete : Bool) :
    (inst_eval scorer results qrels Ts maxg complete).1.qrels = qrels ∧
    (inst_eval scorer results qrels Ts maxg complete).1.Ts = Ts ∧
    (complete = false →
      (inst_eval scorer results qrels Ts maxg complete).1.results = results) := by
  simp only [inst_eval]
  refine ⟨(foldl_frame scorer maxg complete _ _).1,
    (foldl_frame scorer maxg complete _ _).2, ?_⟩
  intro hc
  subst hc
  exact foldl_results_noncomplete scorer maxg _ _

/-- Witness for the amended C9 in non-complete mode. -/
theorem claim_C9_amended_witness :
    (inst_eval inst_algorithm [("q1", [])] [] [] 1 false).1.results = [("q1", [])] :=
  (claim_C9_amended inst_algorithm [("q1", [])] [] [] 1 false).2.2 rfl

end InstEval
